import Mathlib

/- Verification of the git-digger repository identity resolver and mirror
synchronizer (src/lib.rs).  The URL parser, canonical-URL reconstruction,
path derivation and host classification are embedded as executable Lean
functions; the stateful mirror synchronizer `update_repository` is embedded
as a function over an explicit world state (current directory, set of
existing directories, reachability oracle, git-process oracle). -/

namespace GitDigger

/-! ## Lowercasing

`Repository::from_url` applies Rust's `str::to_lowercase` — Unicode full
case mapping — to the captured host/owner/repo substrings.  The model
below keeps its two structure-relevant features exactly: the ASCII case
mapping, and the one one-to-many expansion of the lowercase mapping,
U+0130 (capital I with dot above) becoming the two codepoints i, U+0307.
Other non-ASCII letters, which Rust lowercases one-to-one, are kept
unchanged: that choice only affects the spelling of stored fields at
non-ASCII letters, never the length or the slash/newline structure of a
capture, and no statement below depends on those spellings. -/

/-- ASCII single-character case mapping (the action of `to_lowercase` on
an ASCII character). -/
def lowerChar (c : Char) : Char :=
  if 65 ≤ c.toNat ∧ c.toNat ≤ 90 then Char.ofNat (c.toNat + 32) else c

/-- The character-level action of Rust's `str::to_lowercase`: ASCII
letters map down, U+0130 expands to i followed by the combining dot above
U+0307 (the only one-to-many expansion of Unicode lowercasing), and every
other character is kept. -/
def lowerCharM (c : Char) : List Char :=
  if c = Char.ofNat 304 then ['i', Char.ofNat 775] else [lowerChar c]

/-- `str::to_lowercase` on a character list. -/
def lowerChars (cs : List Char) : List Char := cs.flatMap lowerCharM

/-- ASCII case-folding of a whole string; used only to state that two
URLs differ in nothing but the letter case of some of their characters. -/
def lowerStr (s : String) : String := String.mk (s.data.map lowerChar)

/-! ## The URL regular expressions

`src/lib.rs` declares
  URL_REGEXES = [ "^https?://(github.com)/([^/]+)/([^/]+)/?.*$",
                  "^https?://(gitlab.com)/([^/]+)/([^/]+)/?.*$",
                  "^https?://(salsa.debian.org)/([^/]+)/([^/]+)/?.*$" ].
The three regexes share one shape and differ only in the host group, so the
embedding keeps the list of host patterns and one matching function for the
shared shape.  Regex semantics embedded here (Rust `regex` crate defaults):
the dot inside each host group is unescaped and matches any character other
than a newline; `[^/]` matches any character other than a slash (including
newlines); `.*` cannot cross a newline; `^`/`$` anchor at the ends of the
haystack; `([^/]+)` is greedy and the first regex in the list that matches
wins. -/

def githubHost : List Char :=
  'g' :: 'i' :: 't' :: 'h' :: 'u' :: 'b' :: '.' :: 'c' :: 'o' :: 'm' :: []

def gitlabHost : List Char :=
  'g' :: 'i' :: 't' :: 'l' :: 'a' :: 'b' :: '.' :: 'c' :: 'o' :: 'm' :: []

def salsaHost : List Char :=
  's' :: 'a' :: 'l' :: 's' :: 'a' :: '.' :: 'd' :: 'e' :: 'b' :: 'i' :: 'a' :: 'n' :: '.' :: 'o' :: 'r' :: 'g' :: []

def URL_REGEXES : List (List Char) := [githubHost, gitlabHost, salsaHost]

/-- One position of a host group: an unescaped `.` in the pattern matches any
character except newline, every other pattern character matches itself. -/
def charMatches (p c : Char) : Bool :=
  if p = '.' then c != '\n' else c == p

/-- Match a host pattern against a prefix of the input, returning the captured
characters and the remainder. -/
def matchHostChars : List Char → List Char → Option (List Char × List Char)
  | [], s => some ([], s)
  | _ :: _, [] => none
  | p :: ps, c :: cs =>
    if charMatches p c then
      (matchHostChars ps cs).map (fun pr => (c :: pr.1, pr.2))
    else none

/-- Consume an exact literal sequence from the front of the input. -/
def dropExact : List Char → List Char → Option (List Char)
  | [], s => some s
  | _ :: _, [] => none
  | p :: ps, c :: cs => if c = p then dropExact ps cs else none

def httpsChars : List Char :=
  'h' :: 't' :: 't' :: 'p' :: 's' :: ':' :: '/' :: '/' :: []

def httpChars : List Char :=
  'h' :: 't' :: 't' :: 'p' :: ':' :: '/' :: '/' :: []

/-- The anchored `^https?://` part: the greedy `s?` first tries `https://`,
then falls back to `http://`. -/
def stripScheme (cs : List Char) : Option (List Char) :=
  match dropExact httpsChars cs with
  | some rest => some rest
  | none => dropExact httpChars cs

/-- Consume the literal `/` that separates host, owner and repo. -/
def expectSlash (s : List Char) : Option (List Char) :=
  match s with
  | [] => none
  | c :: rest => if c = '/' then some rest else none

/-- The repository identity: `struct Repository { host, owner, repo }`. -/
structure Repository where
  host : String
  owner : String
  repo : String
deriving DecidableEq

/-- `Repository::new`. -/
def Repository.new (host owner repo : String) : Repository :=
  ⟨host, owner, repo⟩

/-- One regex of `URL_REGEXES` applied to the whole input, returning the
lowercased captures as in the loop body of `Repository::from_url`:
the scheme, then the host group, then `/([^/]+)/([^/]+)/?.*$`.  The greedy
`[^/]+` groups take the maximal slash-free runs (backtracking to a shorter
run can never help: the run is either followed by the required `/`, or by
the optional-slash-and-`.*` tail, which accepts exactly the remainders
containing no newline), so the whole regex is captured by this
deterministic pipeline. -/
def matchPattern (pat : List Char) (cs : List Char) : Option Repository :=
  (stripScheme cs).bind (fun s1 =>
  (matchHostChars pat s1).bind (fun pr =>
  (expectSlash pr.2).bind (fun s3 =>
  (expectSlash (s3.dropWhile (fun c => c != '/'))).bind (fun s5 =>
    let owner := s3.takeWhile (fun c => c != '/')
    let repo := s5.takeWhile (fun c => c != '/')
    let tl := s5.dropWhile (fun c => c != '/')
    if owner ≠ [] ∧ repo ≠ [] ∧ tl.all (fun c => c != '\n') then
      some ⟨String.mk (lowerChars pr.1), String.mk (lowerChars owner),
            String.mk (lowerChars repo)⟩
    else none))))

/-- The regexes are tried in declaration order; the first match wins. -/
def firstMatch : List (List Char) → List Char → Option Repository
  | [], _ => none
  | p :: ps, cs =>
    match matchPattern p cs with
    | some r => some r
    | none => firstMatch ps cs

/-- The apostrophe character used by the `from_url` error message. -/
def quoteChar : Char := Char.ofNat 39

/-- The error produced by `from_url`: the message reads
No match for repo in (the original URL, in single quotes), so the error
always carries the original input string. -/
def parseFailureMsg (url : String) : String :=
  "No match for repo in " ++ String.mk (quoteChar :: (url.data ++ [quoteChar]))

/-- `Repository::from_url`. -/
def Repository.from_url (url : String) : Except String Repository :=
  match firstMatch URL_REGEXES url.data with
  | some r => Except.ok r
  | none => Except.error (parseFailureMsg url)

/-- `Repository::url`: the canonical `https` URL. -/
def Repository.url (r : Repository) : String :=
  "https://" ++ r.host ++ "/" ++ r.owner ++ "/" ++ r.repo

/-- `Path::join` on Unix-style string paths: an absolute component replaces
the base, otherwise a separator is inserted unless the base is empty or
already ends with one. -/
def pathJoin (base child : String) : String :=
  if child.data.head? = some '/' then child
  else if base.data = [] ∨ base.data.getLast? = some '/' then base ++ child
  else base ++ "/" ++ child

/-- `Repository::owner_path`: `root.join(&self.host).join(&self.owner)`. -/
def Repository.owner_path (r : Repository) (root : String) : String :=
  pathJoin (pathJoin root r.host) r.owner

/-- `Repository::path`: `self.owner_path(root).join(&self.repo)`. -/
def Repository.path (r : Repository) (root : String) : String :=
  pathJoin (r.owner_path root) r.repo

/-- `Repository::is_github`. -/
def Repository.is_github (r : Repository) : Bool :=
  r.host == "github.com"

/-- `Repository::is_gitlab`. -/
def Repository.is_gitlab (r : Repository) : Bool :=
  r.host == "gitlab.com" || r.host == "salsa.debian.org"

/-! ## The mirror synchronizer

`Repository::update_repository` mutates process-global state: the current
working directory, the filesystem, and it spawns external `git` processes
and probes the canonical URL over HTTP.  The embedding passes that state
explicitly: `World` holds the current directory, the set of existing
directory paths, a reachability oracle for `check_url` (the `ureq::get`
probe collapsed to a boolean, as the spec describes it), an oracle for the
outcome of spawning the external `git` process, and an oracle for whether
`fs::create_dir_all` fails.  External git invocations are recorded as a
trace of `GitCall`s. -/

/-- An external git invocation: `git clone <url>` run in some directory, or
`git pull` run in some directory. -/
inductive GitCall where
  | clone (url : String) (dir : String)
  | pull (dir : String)
deriving DecidableEq

/-- Outcome of `Command::new("git")...output()`: the process could not be
launched at all, or it ran and exited with success or failure status. -/
inductive GitLaunch where
  | launchFailure
  | exited (success : Bool)
deriving DecidableEq

/-- The process-global state `update_repository` interacts with. -/
structure World where
  cwd : String
  dirs : List String
  reachable : String → Bool
  git : GitLaunch
  createDirFails : Bool

/-- Result of one `update_repository` call: the returned `Result`, the final
world, and the trace of external git invocations. -/
structure SyncResult where
  res : Except String Unit
  world : World
  gitCalls : List GitCall

/-- `env::current_dir()` (under the well-formedness assumption that the
current directory is readable, it returns the current working directory). -/
def currentDir (w : World) : String := w.cwd

/-- Record a directory as existing (no-op when already present). -/
def insertDir (p : String) (ds : List String) : List String :=
  if p ∈ ds then ds else p :: ds

/-- `fs::create_dir_all(&owner_path)`: creates the directory (a hard error
is propagated by `?` in the source, modelled by the oracle). -/
def createDirAll (w : World) (p : String) : Except String World :=
  if w.createDirFails then Except.error "create_dir_all failed"
  else Except.ok { w with dirs := insertDir p w.dirs }

/-- `env::set_current_dir(p)`: succeeds exactly when the target directory
exists, leaving the current directory unchanged on failure. -/
def setCurrentDir (w : World) (p : String) : Except String World :=
  if p ∈ w.dirs then Except.ok { w with cwd := p }
  else Except.error "set_current_dir failed"

/-- `Path::new(&repo_path).exists()`. -/
def pathExists (w : World) (p : String) : Bool := p ∈ w.dirs

/-- `Repository::check_url`: the `ureq::get(&url).call()` probe on the
canonical URL, collapsed to a boolean by the oracle. -/
def Repository.check_url (r : Repository) (w : World) : Bool :=
  w.reachable r.url

/-- `Repository::git_pull`: returns early when the URL is unreachable;
otherwise runs `git pull` in the current directory and logs the outcome,
swallowing launch failures and non-zero exits. -/
def Repository.git_pull (r : Repository) (w : World) : World × List GitCall :=
  if ! r.check_url w then (w, [])
  else
    match w.git with
    | GitLaunch.launchFailure => (w, [GitCall.pull w.cwd])
    | GitLaunch.exited _ => (w, [GitCall.pull w.cwd])

/-- `Repository::git_clone`: returns early when the URL is unreachable;
otherwise runs `git clone <canonical url>` in the current directory (on
success this creates the repo directory there), swallowing launch failures
and non-zero exits. -/
def Repository.git_clone (r : Repository) (w : World) : World × List GitCall :=
  if ! r.check_url w then (w, [])
  else
    match w.git with
    | GitLaunch.launchFailure => (w, [GitCall.clone r.url w.cwd])
    | GitLaunch.exited true =>
      ({ w with dirs := insertDir (pathJoin w.cwd r.repo) w.dirs },
       [GitCall.clone r.url w.cwd])
    | GitLaunch.exited false => (w, [GitCall.clone r.url w.cwd])

/-- `Repository::update_repository(root, clone)`: saves the current
directory, creates the owner path, branches on existence of the repo path
(pull in it, or skip when `clone` is set; clone in the owner path when
absent), and finally restores the saved current directory; every `?` in the
source is an explicit error return here. -/
def Repository.update_repository (r : Repository) (root : String)
    (clone : Bool) (w : World) : SyncResult :=
  let owner_path := r.owner_path root
  let current_dir := currentDir w
  match createDirAll w owner_path with
  | Except.error e => ⟨Except.error e, w, []⟩
  | Except.ok w1 =>
    let repo_path := r.path root
    if pathExists w1 repo_path then
      if clone then
        match setCurrentDir w1 current_dir with
        | Except.error e => ⟨Except.error e, w1, []⟩
        | Except.ok w2 => ⟨Except.ok (), w2, []⟩
      else
        match setCurrentDir w1 repo_path with
        | Except.error e => ⟨Except.error e, w1, []⟩
        | Except.ok w2 =>
          match setCurrentDir (r.git_pull w2).1 current_dir with
          | Except.error e => ⟨Except.error e, (r.git_pull w2).1, (r.git_pull w2).2⟩
          | Except.ok w4 => ⟨Except.ok (), w4, (r.git_pull w2).2⟩
    else
      match setCurrentDir w1 owner_path with
      | Except.error e => ⟨Except.error e, w1, []⟩
      | Except.ok w2 =>
        match setCurrentDir (r.git_clone w2).1 current_dir with
        | Except.error e => ⟨Except.error e, (r.git_clone w2).1, (r.git_clone w2).2⟩
        | Except.ok w4 => ⟨Except.ok (), w4, (r.git_clone w2).2⟩

/-! ## Shape predicates used to characterize the matcher -/

/-- The characters a `[^/]` class accepts. -/
def noSlash (l : List Char) : Prop := ∀ c ∈ l, c ≠ '/'

/-- The characters `.*` accepts. -/
def noNewline (l : List Char) : Prop := ∀ c ∈ l, c ≠ '\n'

/-- What remains after the greedy repo segment: nothing, or something
starting with a slash. -/
def slashTail (t : List Char) : Prop := t = [] ∨ ∃ u, t = '/' :: u

/-- A character list accepted by a host group pattern, position by position. -/
def hostMatches (pat h : List Char) : Prop :=
  List.Forall₂ (fun p c => charMatches p c = true) pat h

/-! ## Lowercasing lemmas -/

theorem lowerChar_toNat (c : Char) :
    (lowerChar c).toNat =
      if 65 ≤ c.toNat ∧ c.toNat ≤ 90 then c.toNat + 32 else c.toNat := by
  unfold lowerChar
  split
  · next hcond =>
    have hv : (c.toNat + 32).isValidChar := Or.inl (by omega)
    simp only [Char.ofNat, dif_pos hv]
    rfl
  · rfl

theorem lowerChar_not_upper (c : Char) (h : ¬ (65 ≤ c.toNat ∧ c.toNat ≤ 90)) :
    lowerChar c = c := by
  rw [lowerChar, if_neg h]

theorem lowerChar_idem (c : Char) : lowerChar (lowerChar c) = lowerChar c := by
  apply lowerChar_not_upper
  rw [lowerChar_toNat]
  split <;> omega

theorem lowerChar_eq_of_small (c d : Char) (hd : ¬ (97 ≤ d.toNat ∧ d.toNat ≤ 122))
    (h : lowerChar c = d) : c = d := by
  by_cases hc : 65 ≤ c.toNat ∧ c.toNat ≤ 90
  · exfalso
    have h1 : (lowerChar c).toNat = c.toNat + 32 := by
      rw [lowerChar_toNat, if_pos hc]
    rw [h] at h1
    omega
  · rw [lowerChar, if_neg hc] at h
    exact h

theorem lowerChar_slash (c : Char) (h : lowerChar c = '/') : c = '/' :=
  lowerChar_eq_of_small c '/' (by decide) h

theorem lowerChar_newline (c : Char) (h : lowerChar c = '\n') : c = '\n' :=
  lowerChar_eq_of_small c '\n' (by decide) h

theorem lowerChar_ne_cap_of_ne (c : Char) (hc : c ≠ Char.ofNat 304) :
    lowerChar c ≠ Char.ofNat 304 := by
  by_cases hup : 65 ≤ c.toNat ∧ c.toNat ≤ 90
  · intro he
    have ht := congrArg Char.toNat he
    rw [lowerChar_toNat, if_pos hup,
      show (Char.ofNat 304).toNat = 304 from by decide] at ht
    omega
  · rw [lowerChar_not_upper c hup]
    exact hc

theorem lowerCharM_ne_nil (c : Char) : lowerCharM c ≠ [] := by
  unfold lowerCharM
  split <;> simp

/-- Every character produced by the lowercase mapping is itself fixed by
the mapping. -/
theorem lowerCharM_fix (c : Char) :
    ∀ d ∈ lowerCharM c, lowerCharM d = [d] ∧ lowerChar d = d := by
  intro d hd
  by_cases hc : c = Char.ofNat 304
  · subst hc
    rw [lowerCharM, if_pos rfl] at hd
    rcases List.mem_cons.mp hd with rfl | hd
    · exact ⟨by decide, by decide⟩
    rcases List.mem_cons.mp hd with rfl | hd
    · exact ⟨by decide, by decide⟩
    exact absurd hd (List.not_mem_nil d)
  · rw [lowerCharM, if_neg hc] at hd
    rcases List.mem_cons.mp hd with rfl | hd
    · refine ⟨?_, lowerChar_idem c⟩
      rw [lowerCharM, if_neg (lowerChar_ne_cap_of_ne c hc), lowerChar_idem]
    exact absurd hd (List.not_mem_nil d)

theorem lowerCharM_lowerChar (c : Char) :
    lowerCharM (lowerChar c) = lowerCharM c := by
  by_cases hc : c = Char.ofNat 304
  · subst hc
    decide
  · rw [lowerCharM, if_neg (lowerChar_ne_cap_of_ne c hc), lowerChar_idem,
      lowerCharM, if_neg hc]

theorem lowerChars_cons (c : Char) (cs : List Char) :
    lowerChars (c :: cs) = lowerCharM c ++ lowerChars cs := by
  simp [lowerChars]

theorem lowerChars_append (a b : List Char) :
    lowerChars (a ++ b) = lowerChars a ++ lowerChars b := by
  simp [lowerChars]

theorem lowerChars_fixed (l : List Char) (h : ∀ d ∈ l, lowerCharM d = [d]) :
    lowerChars l = l := by
  induction l with
  | nil => rfl
  | cons c cs ih =>
    rw [lowerChars_cons, h c (List.mem_cons_self c cs),
      ih (fun d hd => h d (List.mem_cons_of_mem c hd))]
    rfl

theorem lowerChars_idem (l : List Char) :
    lowerChars (lowerChars l) = lowerChars l := by
  induction l with
  | nil => rfl
  | cons c cs ih =>
    rw [lowerChars_cons, lowerChars_append, ih,
      lowerChars_fixed (lowerCharM c) (fun d hd => (lowerCharM_fix c d hd).1)]

theorem lowerChars_mapLower (l : List Char) :
    lowerChars (l.map lowerChar) = lowerChars l := by
  induction l with
  | nil => rfl
  | cons c cs ih =>
    rw [List.map_cons, lowerChars_cons, lowerChars_cons,
      lowerCharM_lowerChar, ih]

theorem mapLower_lowerChars (l : List Char) :
    (lowerChars l).map lowerChar = lowerChars l := by
  have hfix : ∀ d ∈ lowerChars l, lowerChar d = d := by
    intro d hd
    rw [lowerChars, List.mem_flatMap] at hd
    obtain ⟨x, hx, hdx⟩ := hd
    exact (lowerCharM_fix x d hdx).2
  calc (lowerChars l).map lowerChar
      = (lowerChars l).map id := List.map_congr_left hfix
    _ = lowerChars l := List.map_id _

theorem lowerChars_ne_nil (l : List Char) (h : l ≠ []) : lowerChars l ≠ [] := by
  cases l with
  | nil => exact absurd rfl h
  | cons c cs =>
    rw [lowerChars_cons]
    intro hnil
    exact lowerCharM_ne_nil c (List.append_eq_nil.mp hnil).1

theorem noSlash_lowerChars (l : List Char) (h : noSlash l) :
    noSlash (lowerChars l) := by
  intro c hc hcs
  subst hcs
  rw [lowerChars, List.mem_flatMap] at hc
  obtain ⟨x, hx, hcx⟩ := hc
  by_cases hcap : x = Char.ofNat 304
  · subst hcap
    rw [lowerCharM, if_pos rfl] at hcx
    exact absurd hcx (by decide)
  · rw [lowerCharM, if_neg hcap] at hcx
    rcases List.mem_cons.mp hcx with h1 | h1
    · exact h x hx (lowerChar_slash x h1.symm)
    · exact absurd h1 (List.not_mem_nil _)

theorem noNewline_lowerChars (l : List Char) (h : noNewline l) :
    noNewline (lowerChars l) := by
  intro c hc hcs
  subst hcs
  rw [lowerChars, List.mem_flatMap] at hc
  obtain ⟨x, hx, hcx⟩ := hc
  by_cases hcap : x = Char.ofNat 304
  · subst hcap
    rw [lowerCharM, if_pos rfl] at hcx
    exact absurd hcx (by decide)
  · rw [lowerCharM, if_neg hcap] at hcx
    rcases List.mem_cons.mp hcx with h1 | h1
    · exact h x hx (lowerChar_newline x h1.symm)
    · exact absurd h1 (List.not_mem_nil _)

theorem mapLower_ne_nil (l : List Char) (h : l ≠ []) :
    l.map lowerChar ≠ [] := by
  cases l with
  | nil => exact absurd rfl h
  | cons c cs => simp

theorem noSlash_mapLower (l : List Char) (h : noSlash l) :
    noSlash (l.map lowerChar) := by
  intro c hc
  simp only [List.mem_map] at hc
  obtain ⟨x, hx, hxc⟩ := hc
  intro hcs
  exact h x hx (lowerChar_slash x (hxc.trans hcs))

theorem noNewline_mapLower (l : List Char) (h : noNewline l) :
    noNewline (l.map lowerChar) := by
  intro c hc
  simp only [List.mem_map] at hc
  obtain ⟨x, hx, hxc⟩ := hc
  intro hcs
  exact h x hx (lowerChar_newline x (hxc.trans hcs))

theorem lowerChars_head (c : Char) (t : List Char) (hc : lowerCharM c = [c]) :
    (lowerChars (c :: t)).head? = some c := by
  rw [lowerChars_cons, hc]
  rfl

theorem lowerChars_last (c : Char) (t : List Char) (hc : lowerCharM c = [c]) :
    (lowerChars (t ++ [c])).getLast? = some c := by
  rw [lowerChars_append, List.getLast?_append,
    show lowerChars [c] = [c] from by rw [lowerChars_cons, hc]; rfl]
  rfl

/-! ## Matcher building-block lemmas -/

theorem charMatches_dot (c : Char) : charMatches '.' c = true ↔ c ≠ '\n' := by
  simp [charMatches]

theorem charMatches_lit (p c : Char) (hp : p ≠ '.') :
    charMatches p c = true ↔ c = p := by
  simp [charMatches, hp]

theorem charMatches_lower (p c : Char) (hp : lowerChar p = p)
    (h : charMatches p c = true) : charMatches p (lowerChar c) = true := by
  by_cases hdot : p = '.'
  · subst hdot
    rw [charMatches_dot] at h ⊢
    intro hc
    exact h (lowerChar_newline c hc)
  · rw [charMatches_lit p c hdot] at h
    rw [charMatches_lit p (lowerChar c) hdot, h, hp]

theorem hostMatches_lower : ∀ pat h, (∀ p ∈ pat, lowerChar p = p) →
    hostMatches pat h → hostMatches pat (h.map lowerChar) := by
  intro pat
  induction pat with
  | nil =>
    intro h hp hm
    cases hm
    exact List.Forall₂.nil
  | cons p ps ih =>
    intro h hp hm
    rcases hm with _ | ⟨hpc, hf⟩
    rename_i b l2
    exact List.Forall₂.cons
      (charMatches_lower p b (hp p (List.mem_cons_self p ps)) hpc)
      (ih l2 (fun q hq => hp q (List.mem_cons_of_mem p hq)) hf)

theorem dropExact_iff (p : List Char) :
    ∀ s r, dropExact p s = some r ↔ s = p ++ r := by
  induction p with
  | nil =>
    intro s r
    simp [dropExact]
  | cons q ps ih =>
    intro s r
    cases s with
    | nil => simp [dropExact]
    | cons c cs =>
      by_cases hc : c = q
      · subst hc
        simp [dropExact, ih cs r]
      · rw [dropExact, if_neg hc]
        simp only [List.cons_append]
        constructor
        · intro h
          exact Option.noConfusion h
        · intro h
          injection h with h1 _
          exact absurd h1 hc

theorem stripScheme_https (s : List Char) :
    stripScheme (httpsChars ++ s) = some s := by
  unfold stripScheme
  rw [(dropExact_iff httpsChars (httpsChars ++ s) s).mpr rfl]

theorem stripScheme_http (s : List Char) :
    stripScheme (httpChars ++ s) = some s := by
  unfold stripScheme
  cases hd : dropExact httpsChars (httpChars ++ s) with
  | some r =>
    exfalso
    have := (dropExact_iff httpsChars (httpChars ++ s) r).mp hd
    simp [httpChars, httpsChars] at this
  | none =>
    rw [(dropExact_iff httpChars (httpChars ++ s) s).mpr rfl]

theorem stripScheme_some (cs s : List Char) (h : stripScheme cs = some s) :
    cs = httpsChars ++ s ∨ cs = httpChars ++ s := by
  unfold stripScheme at h
  cases hd : dropExact httpsChars cs with
  | some r =>
    rw [hd] at h
    have hr : r = s := by injection h
    subst hr
    exact Or.inl ((dropExact_iff httpsChars cs r).mp hd)
  | none =>
    rw [hd] at h
    exact Or.inr ((dropExact_iff httpChars cs s).mp h)

theorem expectSlash_iff (s r : List Char) :
    expectSlash s = some r ↔ s = '/' :: r := by
  cases s with
  | nil => simp [expectSlash]
  | cons c cs =>
    by_cases hc : c = '/'
    · subst hc
      simp [expectSlash]
    · have he : expectSlash (c :: cs) = none := by
        simp [expectSlash, hc]
      rw [he]
      constructor
      · intro h
        exact Option.noConfusion h
      · intro h
        injection h with h1 _
        exact absurd h1 hc

theorem matchHostChars_sound (pat : List Char) :
    ∀ s h rest, matchHostChars pat s = some (h, rest) →
      s = h ++ rest ∧ hostMatches pat h := by
  induction pat with
  | nil =>
    intro s h rest hm
    simp [matchHostChars] at hm
    obtain ⟨rfl, rfl⟩ := hm
    exact ⟨rfl, List.Forall₂.nil⟩
  | cons p ps ih =>
    intro s h rest hm
    cases s with
    | nil => simp [matchHostChars] at hm
    | cons c cs =>
      rw [matchHostChars] at hm
      by_cases hc : charMatches p c = true
      · rw [if_pos hc] at hm
        cases hrec : matchHostChars ps cs with
        | none => rw [hrec] at hm; simp at hm
        | some pr =>
          rw [hrec] at hm
          simp only [Option.map_some'] at hm
          injection hm with hm
          have h1 : c :: pr.1 = h := congrArg Prod.fst hm
          have h2 : pr.2 = rest := congrArg Prod.snd hm
          obtain ⟨hs, hf⟩ := ih cs pr.1 pr.2 (by rw [hrec])
          subst h1
          subst h2
          constructor
          · rw [List.cons_append, ← hs]
          · exact List.Forall₂.cons hc hf
      · rw [if_neg hc] at hm
        simp at hm

theorem matchHostChars_complete : ∀ pat h rest, hostMatches pat h →
    matchHostChars pat (h ++ rest) = some (h, rest) := by
  intro pat
  induction pat with
  | nil =>
    intro h rest hm
    cases hm
    rfl
  | cons p ps ih =>
    intro h rest hm
    rcases hm with _ | ⟨hpc, hf⟩
    rename_i b l2
    rw [List.cons_append, matchHostChars, if_pos hpc, ih l2 rest hf]
    rfl

/-! ## Greedy segment lemmas -/

theorem noSlash_takeWhile (s : List Char) :
    noSlash (s.takeWhile (fun c => c != '/')) := by
  intro c hc
  have := List.mem_takeWhile_imp hc
  simpa using this

theorem slashTail_dropWhile (s : List Char) :
    slashTail (s.dropWhile (fun c => c != '/')) := by
  induction s with
  | nil => exact Or.inl rfl
  | cons c cs ih =>
    by_cases hc : c = '/'
    · subst hc
      right
      exact ⟨cs, by simp [List.dropWhile_cons]⟩
    · rw [List.dropWhile_cons]
      simp only [bne_iff_ne, ne_eq, hc, not_false_eq_true, if_true]
      exact ih

theorem seg_append : ∀ a b, noSlash a →
    ((a ++ '/' :: b).takeWhile (fun c => c != '/') = a ∧
     (a ++ '/' :: b).dropWhile (fun c => c != '/') = '/' :: b) := by
  intro a
  induction a with
  | nil =>
    intro b _
    constructor
    · simp [List.takeWhile_cons]
    · simp [List.dropWhile_cons]
  | cons c cs ih =>
    intro b ha
    have hc : c ≠ '/' := ha c (List.mem_cons_self c cs)
    have hcs : noSlash cs := fun x hx => ha x (List.mem_cons_of_mem c hx)
    obtain ⟨ht, hd⟩ := ih b hcs
    constructor
    · rw [List.cons_append, List.takeWhile_cons]
      simp only [bne_iff_ne, ne_eq, hc, not_false_eq_true, if_true, ht]
    · rw [List.cons_append, List.dropWhile_cons]
      simp only [bne_iff_ne, ne_eq, hc, not_false_eq_true, if_true, hd]

theorem seg_self : ∀ a, noSlash a →
    (a.takeWhile (fun c => c != '/') = a ∧
     a.dropWhile (fun c => c != '/') = []) := by
  intro a
  induction a with
  | nil => intro _; exact ⟨rfl, rfl⟩
  | cons c cs ih =>
    intro ha
    have hc : c ≠ '/' := ha c (List.mem_cons_self c cs)
    have hcs : noSlash cs := fun x hx => ha x (List.mem_cons_of_mem c hx)
    obtain ⟨ht, hd⟩ := ih hcs
    constructor
    · rw [List.takeWhile_cons]
      simp only [bne_iff_ne, ne_eq, hc, not_false_eq_true, if_true, ht]
    · rw [List.dropWhile_cons]
      simp only [bne_iff_ne, ne_eq, hc, not_false_eq_true, if_true, hd]

theorem noNewline_all (t : List Char) :
    t.all (fun c => c != '\n') = true ↔ noNewline t := by
  simp [List.all_eq_true, noNewline]

/-! ## Characterization of one regex -/

/-- A single regex of `URL_REGEXES` matches exactly the strings of the form
scheme ++ host ++ `/` ++ owner ++ `/` ++ repo ++ tail, with owner and repo
nonempty and slash-free, the tail empty or slash-initial, and the tail free
of newlines; the captures are the lowercased host, owner and repo. -/
theorem matchPattern_some_iff (pat cs : List Char) (rep : Repository) :
    matchPattern pat cs = some rep ↔
    ∃ sch h o rp t,
      (sch = httpsChars ∨ sch = httpChars) ∧ hostMatches pat h ∧
      o ≠ [] ∧ noSlash o ∧ rp ≠ [] ∧ noSlash rp ∧ slashTail t ∧ noNewline t ∧
      cs = sch ++ (h ++ ('/' :: (o ++ ('/' :: (rp ++ t))))) ∧
      rep = ⟨String.mk (lowerChars h), String.mk (lowerChars o),
             String.mk (lowerChars rp)⟩ := by
  constructor
  · intro hm
    simp only [matchPattern, Option.bind_eq_some] at hm
    obtain ⟨s1, hs1, pr, hpr, s3, hs3, s5, hs5, hfin⟩ := hm
    obtain ⟨hsplit, hhost⟩ := matchHostChars_sound pat s1 pr.1 pr.2 (by
      rw [hpr])
    rw [expectSlash_iff] at hs3 hs5
    have htake : s3.takeWhile (fun c => c != '/') ++
        s3.dropWhile (fun c => c != '/') = s3 :=
      List.takeWhile_append_dropWhile ..
    have htake5 : s5.takeWhile (fun c => c != '/') ++
        s5.dropWhile (fun c => c != '/') = s5 :=
      List.takeWhile_append_dropWhile ..
    obtain ⟨sch, hschor, hcs⟩ :
        ∃ sch, (sch = httpsChars ∨ sch = httpChars) ∧ cs = sch ++ s1 := by
      rcases stripScheme_some cs s1 hs1 with h | h
      · exact ⟨httpsChars, Or.inl rfl, h⟩
      · exact ⟨httpChars, Or.inr rfl, h⟩
    split at hfin
    · next hcond =>
      obtain ⟨ho, hrp, htl⟩ := hcond
      injection hfin with hfin
      obtain ⟨o, hodef⟩ : ∃ x, s3.takeWhile (fun c => c != '/') = x := ⟨_, rfl⟩
      obtain ⟨rp, hrpdef⟩ : ∃ x, s5.takeWhile (fun c => c != '/') = x := ⟨_, rfl⟩
      obtain ⟨t, htdef⟩ : ∃ x, s5.dropWhile (fun c => c != '/') = x := ⟨_, rfl⟩
      rw [hodef] at ho htake hfin
      rw [hrpdef] at hrp htake5 hfin
      rw [htdef] at htl htake5
      rw [hs5] at htake
      refine ⟨sch, pr.1, o, rp, t, hschor, hhost, ho, ?_, hrp, ?_, ?_, ?_, ?_, ?_⟩
      · exact hodef ▸ noSlash_takeWhile s3
      · exact hrpdef ▸ noSlash_takeWhile s5
      · exact htdef ▸ slashTail_dropWhile s5
      · exact (noNewline_all t).mp htl
      · rw [hcs, hsplit, hs3, ← htake, ← htake5]
      · rw [← hfin]
    · exact absurd hfin (by simp)
  · intro hm
    obtain ⟨sch, h, o, rp, t, hsch, hhost, ho, hos, hrp, hrps, hst, hnn,
      hcs, hrep⟩ := hm
    subst hcs
    subst hrep
    have h1 : stripScheme (sch ++ (h ++ ('/' :: (o ++ ('/' :: (rp ++ t)))))) =
        some (h ++ ('/' :: (o ++ ('/' :: (rp ++ t))))) := by
      rcases hsch with rfl | rfl
      · exact stripScheme_https _
      · exact stripScheme_http _
    obtain ⟨htko, hdro⟩ := seg_append o (rp ++ t) hos
    have hrp2 : (rp ++ t).takeWhile (fun c => c != '/') = rp ∧
        (rp ++ t).dropWhile (fun c => c != '/') = t := by
      rcases hst with rfl | ⟨u, rfl⟩
      · rw [List.append_nil]
        exact seg_self rp hrps
      · exact seg_append rp u hrps
    simp only [matchPattern, h1, Option.some_bind,
      matchHostChars_complete pat h ('/' :: (o ++ ('/' :: (rp ++ t)))) hhost,
      (expectSlash_iff ('/' :: (o ++ ('/' :: (rp ++ t))))
        (o ++ ('/' :: (rp ++ t)))).mpr rfl,
      hdro,
      (expectSlash_iff ('/' :: (rp ++ t)) (rp ++ t)).mpr rfl,
      htko, hrp2.1, hrp2.2]
    rw [if_pos ⟨ho, hrp, (noNewline_all t).mpr hnn⟩]

/-! ## Characterization of `from_url` -/

theorem firstMatch_some_iff (cs : List Char) (rep : Repository) :
    firstMatch URL_REGEXES cs = some rep ↔
      matchPattern githubHost cs = some rep ∨
      (matchPattern githubHost cs = none ∧
        matchPattern gitlabHost cs = some rep) ∨
      (matchPattern githubHost cs = none ∧ matchPattern gitlabHost cs = none ∧
        matchPattern salsaHost cs = some rep) := by
  cases h1 : matchPattern githubHost cs with
  | some r => simp [URL_REGEXES, firstMatch, h1]
  | none =>
    cases h2 : matchPattern gitlabHost cs with
    | some r => simp [URL_REGEXES, firstMatch, h1, h2]
    | none =>
      cases h3 : matchPattern salsaHost cs <;>
        simp [URL_REGEXES, firstMatch, h1, h2, h3]

theorem matchHostChars_github_of_gitlab (h x : List Char)
    (hf : hostMatches gitlabHost h) :
    matchHostChars githubHost (h ++ x) = none := by
  rcases hf with _ | ⟨h0, hf⟩
  rename_i c0 t0
  rcases hf with _ | ⟨h1, hf⟩
  rename_i c1 t1
  rcases hf with _ | ⟨h2, hf⟩
  rename_i c2 t2
  rcases hf with _ | ⟨h3, hf⟩
  rename_i c3 t3
  obtain rfl := (charMatches_lit 'g' c0 (by decide)).mp h0
  obtain rfl := (charMatches_lit 'i' c1 (by decide)).mp h1
  obtain rfl := (charMatches_lit 't' c2 (by decide)).mp h2
  obtain rfl := (charMatches_lit 'l' c3 (by decide)).mp h3
  simp [githubHost, matchHostChars, charMatches]

theorem matchHostChars_github_gitlab_of_salsa (h x : List Char)
    (hf : hostMatches salsaHost h) :
    matchHostChars githubHost (h ++ x) = none ∧
    matchHostChars gitlabHost (h ++ x) = none := by
  rcases hf with _ | ⟨h0, hf⟩
  rename_i c0 t0
  obtain rfl := (charMatches_lit 's' c0 (by decide)).mp h0
  constructor
  · simp [githubHost, matchHostChars, charMatches]
  · simp [gitlabHost, matchHostChars, charMatches]

theorem matchPattern_none_of_host (pat sch Y : List Char)
    (hsch : sch = httpsChars ∨ sch = httpChars)
    (hY : matchHostChars pat Y = none) :
    matchPattern pat (sch ++ Y) = none := by
  have h1 : stripScheme (sch ++ Y) = some Y := by
    rcases hsch with rfl | rfl
    · exact stripScheme_https _
    · exact stripScheme_http _
  simp [matchPattern, h1, hY]

/-- `from_url` succeeds exactly on the strings of the regex shape, with the
lowercased captures forming the identity. -/
theorem from_url_ok_iff (u : String) (rep : Repository) :
    Repository.from_url u = Except.ok rep ↔
    ∃ sch h o rp t,
      (sch = httpsChars ∨ sch = httpChars) ∧
      (hostMatches githubHost h ∨ hostMatches gitlabHost h ∨
        hostMatches salsaHost h) ∧
      o ≠ [] ∧ noSlash o ∧ rp ≠ [] ∧ noSlash rp ∧ slashTail t ∧ noNewline t ∧
      u.data = sch ++ (h ++ ('/' :: (o ++ ('/' :: (rp ++ t))))) ∧
      rep = ⟨String.mk (lowerChars h), String.mk (lowerChars o),
             String.mk (lowerChars rp)⟩ := by
  have hfm : Repository.from_url u = Except.ok rep ↔
      firstMatch URL_REGEXES u.data = some rep := by
    unfold Repository.from_url
    cases hf : firstMatch URL_REGEXES u.data <;> simp
  rw [hfm, firstMatch_some_iff]
  constructor
  · intro hm
    rcases hm with hm | ⟨_, hm⟩ | ⟨_, _, hm⟩
    · obtain ⟨sch, h, o, rp, t, hsch, hhost, rest⟩ :=
        (matchPattern_some_iff githubHost u.data rep).mp hm
      exact ⟨sch, h, o, rp, t, hsch, Or.inl hhost, rest⟩
    · obtain ⟨sch, h, o, rp, t, hsch, hhost, rest⟩ :=
        (matchPattern_some_iff gitlabHost u.data rep).mp hm
      exact ⟨sch, h, o, rp, t, hsch, Or.inr (Or.inl hhost), rest⟩
    · obtain ⟨sch, h, o, rp, t, hsch, hhost, rest⟩ :=
        (matchPattern_some_iff salsaHost u.data rep).mp hm
      exact ⟨sch, h, o, rp, t, hsch, Or.inr (Or.inr hhost), rest⟩
  · intro hm
    obtain ⟨sch, h, o, rp, t, hsch, hhost, rest⟩ := hm
    rcases hhost with hhost | hhost | hhost
    · exact Or.inl ((matchPattern_some_iff githubHost u.data rep).mpr
        ⟨sch, h, o, rp, t, hsch, hhost, rest⟩)
    · refine Or.inr (Or.inl ⟨?_, (matchPattern_some_iff gitlabHost u.data
        rep).mpr ⟨sch, h, o, rp, t, hsch, hhost, rest⟩⟩)
      rw [rest.2.2.2.2.2.2.1]
      exact matchPattern_none_of_host githubHost sch _ hsch
        (matchHostChars_github_of_gitlab h _ hhost)
    · have hnone := matchHostChars_github_gitlab_of_salsa h
        ('/' :: (o ++ ('/' :: (rp ++ t)))) hhost
      refine Or.inr (Or.inr ⟨?_, ?_, (matchPattern_some_iff salsaHost u.data
        rep).mpr ⟨sch, h, o, rp, t, hsch, hhost, rest⟩⟩)
      · rw [rest.2.2.2.2.2.2.1]
        exact matchPattern_none_of_host githubHost sch _ hsch hnone.1
      · rw [rest.2.2.2.2.2.2.1]
        exact matchPattern_none_of_host gitlabHost sch _ hsch hnone.2

/-! ## Facts about the fields of a resolved identity -/

theorem hostMatches_lower3 (h : List Char)
    (hhost : hostMatches githubHost h ∨ hostMatches gitlabHost h ∨
      hostMatches salsaHost h) :
    hostMatches githubHost (h.map lowerChar) ∨
    hostMatches gitlabHost (h.map lowerChar) ∨
    hostMatches salsaHost (h.map lowerChar) := by
  rcases hhost with hh | hh | hh
  · exact Or.inl (hostMatches_lower githubHost h (by decide) hh)
  · exact Or.inr (Or.inl (hostMatches_lower gitlabHost h (by decide) hh))
  · exact Or.inr (Or.inr (hostMatches_lower salsaHost h (by decide) hh))

theorem head?_ne_slash (l : List Char) (h : noSlash l) : l.head? ≠ some '/' := by
  cases l with
  | nil => simp
  | cons c t =>
    intro he
    injection he with he
    exact h c (List.mem_cons_self c t) he

theorem getLast?_ne_slash (l : List Char) (h : noSlash l) :
    l.getLast? ≠ some '/' := by
  intro he
  exact h '/' (List.mem_of_mem_getLast? (by rw [he]; rfl)) rfl

/-- First and last characters of a capture of one of the three host groups:
the first character is the literal g or s, the last is the literal m or g,
and this survives lowercasing. -/
theorem host_first_last (h : List Char)
    (hhost : hostMatches githubHost h ∨ hostMatches gitlabHost h ∨
      hostMatches salsaHost h) :
    ((lowerChars h).head? = some 'g' ∨ (lowerChars h).head? = some 's') ∧
    ((lowerChars h).getLast? = some 'm' ∨ (lowerChars h).getLast? = some 'g') ∧
    lowerChars h ≠ [] := by
  have main : (h.head? = some 'g' ∨ h.head? = some 's') ∧
      (h.getLast? = some 'm' ∨ h.getLast? = some 'g') ∧ h ≠ [] := by
    rcases hhost with hh | hh | hh
    · have hrev := List.rel_reverse hh
      rw [show githubHost.reverse =
        'm' :: 'o' :: 'c' :: '.' :: 'b' :: 'u' :: 'h' :: 't' :: 'i' :: 'g' :: []
        from by decide] at hrev
      obtain ⟨hr, hhrev⟩ : ∃ x, List.reverse h = x := ⟨_, rfl⟩
      rw [hhrev] at hrev
      rcases hrev with _ | ⟨hr0, hrestr⟩
      rename_i cr tr
      obtain rfl := (charMatches_lit 'm' cr (by decide)).mp hr0
      have hlast : h.getLast? = some 'm' := by
        rw [← List.head?_reverse, hhrev]
        rfl
      rcases hh with _ | ⟨h0, hrest⟩
      rename_i c0 t0
      obtain rfl := (charMatches_lit 'g' c0 (by decide)).mp h0
      exact ⟨Or.inl rfl, Or.inl hlast, by simp⟩
    · have hrev := List.rel_reverse hh
      rw [show gitlabHost.reverse =
        'm' :: 'o' :: 'c' :: '.' :: 'b' :: 'a' :: 'l' :: 't' :: 'i' :: 'g' :: []
        from by decide] at hrev
      obtain ⟨hr, hhrev⟩ : ∃ x, List.reverse h = x := ⟨_, rfl⟩
      rw [hhrev] at hrev
      rcases hrev with _ | ⟨hr0, hrestr⟩
      rename_i cr tr
      obtain rfl := (charMatches_lit 'm' cr (by decide)).mp hr0
      have hlast : h.getLast? = some 'm' := by
        rw [← List.head?_reverse, hhrev]
        rfl
      rcases hh with _ | ⟨h0, hrest⟩
      rename_i c0 t0
      obtain rfl := (charMatches_lit 'g' c0 (by decide)).mp h0
      exact ⟨Or.inl rfl, Or.inl hlast, by simp⟩
    · have hrev := List.rel_reverse hh
      rw [show salsaHost.reverse =
        'g' :: 'r' :: 'o' :: '.' :: 'n' :: 'a' :: 'i' :: 'b' :: 'e' :: 'd' ::
        '.' :: 'a' :: 's' :: 'l' :: 'a' :: 's' :: []
        from by decide] at hrev
      obtain ⟨hr, hhrev⟩ : ∃ x, List.reverse h = x := ⟨_, rfl⟩
      rw [hhrev] at hrev
      rcases hrev with _ | ⟨hr0, hrestr⟩
      rename_i cr tr
      obtain rfl := (charMatches_lit 'g' cr (by decide)).mp hr0
      have hlast : h.getLast? = some 'g' := by
        rw [← List.head?_reverse, hhrev]
        rfl
      rcases hh with _ | ⟨h0, hrest⟩
      rename_i c0 t0
      obtain rfl := (charMatches_lit 's' c0 (by decide)).mp h0
      exact ⟨Or.inr rfl, Or.inr hlast, by simp⟩
  obtain ⟨hhd, hlast, hne⟩ := main
  refine ⟨?_, ?_, lowerChars_ne_nil h hne⟩
  · cases h with
    | nil => exact absurd rfl hne
    | cons c t =>
      rcases hhd with hh | hh
      · have hc : some c = some 'g' := hh
        injection hc with hc
        subst hc
        exact Or.inl (lowerChars_head 'g' t (by decide))
      · have hc : some c = some 's' := hh
        injection hc with hc
        subst hc
        exact Or.inr (lowerChars_head 's' t (by decide))
  · rcases hlast with hh | hh
    · obtain ⟨tr, rfl⟩ : ∃ tr, h = tr ++ ['m'] := by
        have h2 : h.reverse.head? = some 'm' := by
          rw [List.head?_reverse]
          exact hh
        cases hr : h.reverse with
        | nil => rw [hr] at h2; exact absurd h2 (by simp)
        | cons c tr =>
          rw [hr] at h2
          have hc : some c = some 'm' := h2
          injection hc with hc
          subst hc
          refine ⟨tr.reverse, ?_⟩
          rw [← List.reverse_reverse h, hr, List.reverse_cons]
      exact Or.inl (lowerChars_last 'm' tr (by decide))
    · obtain ⟨tr, rfl⟩ : ∃ tr, h = tr ++ ['g'] := by
        have h2 : h.reverse.head? = some 'g' := by
          rw [List.head?_reverse]
          exact hh
        cases hr : h.reverse with
        | nil => rw [hr] at h2; exact absurd h2 (by simp)
        | cons c tr =>
          rw [hr] at h2
          have hc : some c = some 'g' := h2
          injection hc with hc
          subst hc
          refine ⟨tr.reverse, ?_⟩
          rw [← List.reverse_reverse h, hr, List.reverse_cons]
      exact Or.inr (lowerChars_last 'g' tr (by decide))

/-- Structural facts about every successfully resolved identity: host starts
and ends with a non-slash letter, owner and repo are nonempty and free of
slashes. -/
theorem from_url_fields (u : String) (rep : Repository)
    (hok : Repository.from_url u = Except.ok rep) :
    rep.host.data ≠ [] ∧ rep.host.data.head? ≠ some '/' ∧
    rep.host.data.getLast? ≠ some '/' ∧
    rep.owner.data ≠ [] ∧ noSlash rep.owner.data ∧
    rep.repo.data ≠ [] ∧ noSlash rep.repo.data := by
  obtain ⟨sch, h, o, rp, t, hsch, hhost, ho, hos, hrp, hrps, hst, hnn, hu,
    hrep⟩ := (from_url_ok_iff u rep).mp hok
  subst hrep
  obtain ⟨hhd, hlast, hne⟩ := host_first_last h hhost
  refine ⟨hne, ?_, ?_, lowerChars_ne_nil o ho, noSlash_lowerChars o hos,
    lowerChars_ne_nil rp hrp, noSlash_lowerChars rp hrps⟩
  · rcases hhd with hh | hh <;> rw [show (Repository.mk (String.mk
      (lowerChars h)) (String.mk (lowerChars o)) (String.mk (lowerChars
      rp))).host.data = lowerChars h from rfl, hh] <;> simp
  · rcases hlast with hh | hh <;> rw [show (Repository.mk (String.mk
      (lowerChars h)) (String.mk (lowerChars o)) (String.mk (lowerChars
      rp))).host.data = lowerChars h from rfl, hh] <;> simp

/-! ## Path-join lemmas -/

theorem pathJoin_eq (base child : String) (hc1 : child.data.head? ≠ some '/')
    (hb1 : base.data ≠ []) (hb2 : base.data.getLast? ≠ some '/') :
    pathJoin base child = base ++ "/" ++ child := by
  unfold pathJoin
  rw [if_neg hc1, if_neg (not_or.mpr ⟨hb1, hb2⟩)]

theorem pathJoin_ne (base child : String) (hc : child.data ≠ [])
    (hc1 : child.data.head? ≠ some '/') : pathJoin base child ≠ base := by
  unfold pathJoin
  rw [if_neg hc1]
  split
  · intro he
    have hd := congrArg String.data he
    rw [String.data_append] at hd
    have hlen := congrArg List.length hd
    rw [List.length_append] at hlen
    have : child.data.length = 0 := by omega
    exact hc (List.eq_nil_of_length_eq_zero this)
  · intro he
    have hd := congrArg String.data he
    rw [String.data_append, String.data_append] at hd
    have hlen := congrArg List.length hd
    rw [List.length_append, List.length_append] at hlen
    have : ("/" : String).data.length = 1 := by decide
    omega

/-! ## Synchronizer world lemmas -/

theorem git_pull_world (r : Repository) (w : World) : (r.git_pull w).1 = w := by
  unfold Repository.git_pull
  split
  · rfl
  · split <;> rfl

theorem git_pull_calls (r : Repository) (w : World) :
    (r.git_pull w).2.length ≤ 1 := by
  unfold Repository.git_pull
  split
  · simp
  · split <;> simp

theorem git_clone_cwd (r : Repository) (w : World) :
    (r.git_clone w).1.cwd = w.cwd := by
  unfold Repository.git_clone
  split
  · rfl
  · split <;> rfl

theorem mem_insertDir (p q : String) (ds : List String) (hp : p ∈ ds) :
    p ∈ insertDir q ds := by
  unfold insertDir
  split
  · exact hp
  · exact List.mem_cons_of_mem q hp

theorem mem_insertDir_self (q : String) (ds : List String) :
    q ∈ insertDir q ds := by
  unfold insertDir
  split
  · assumption
  · exact List.mem_cons_self q ds

theorem git_clone_dirs_mono (r : Repository) (w : World) (p : String)
    (hp : p ∈ w.dirs) : p ∈ (r.git_clone w).1.dirs := by
  unfold Repository.git_clone
  split
  · exact hp
  · split
    · exact hp
    · exact mem_insertDir p _ w.dirs hp
    · exact hp

theorem git_clone_calls (r : Repository) (w : World) :
    (r.git_clone w).2.length ≤ 1 := by
  unfold Repository.git_clone
  split
  · simp
  · split <;> simp

theorem git_clone_unreachable (r : Repository) (w : World)
    (h : r.check_url w = false) : r.git_clone w = (w, []) := by
  unfold Repository.git_clone
  rw [if_pos (by rw [h]; rfl)]

theorem not_mem_insertDir (p q : String) (ds : List String) (hne : p ≠ q)
    (hp : p ∉ ds) : p ∉ insertDir q ds := by
  unfold insertDir
  split
  · exact hp
  · intro hmem
    rcases List.mem_cons.mp hmem with h | h
    · exact hne h
    · exact hp h

theorem setCurrentDir_ok (w : World) (p : String) (hp : p ∈ w.dirs) :
    setCurrentDir w p = Except.ok { w with cwd := p } := by
  unfold setCurrentDir
  rw [if_pos hp]

theorem pathExists_iff (w : World) (p : String) :
    pathExists w p = true ↔ p ∈ w.dirs := by
  simp [pathExists]

/-- Outcome of `update_repository` whenever directory creation succeeds and
the starting working directory exists: the call succeeds, the working
directory is restored, and at most one external git command is run. -/
theorem update_run (rep : Repository) (root : String) (clone : Bool)
    (w : World) (hcf : w.createDirFails = false) (hcwd : w.cwd ∈ w.dirs) :
    (rep.update_repository root clone w).res = Except.ok () ∧
    (rep.update_repository root clone w).world.cwd = w.cwd ∧
    (rep.update_repository root clone w).gitCalls.length ≤ 1 := by
  unfold Repository.update_repository
  have hcf2 : ¬ w.createDirFails = true := by rw [hcf]; simp
  simp only [createDirAll, if_neg hcf2, currentDir]
  split
  · next hex =>
    split
    · have hA := setCurrentDir_ok
        { w with dirs := insertDir (rep.owner_path root) w.dirs } w.cwd
        (mem_insertDir w.cwd _ _ hcwd)
      simp only [hA]
      simp
    · have hB := setCurrentDir_ok
        { w with dirs := insertDir (rep.owner_path root) w.dirs }
        (rep.path root) ((pathExists_iff _ _).mp hex)
      simp only [hB, git_pull_world]
      have hC := setCurrentDir_ok
        { w with dirs := insertDir (rep.owner_path root) w.dirs, cwd := rep.path root }
        w.cwd (mem_insertDir w.cwd _ _ hcwd)
      simp only [hC]
      exact ⟨trivial, trivial, git_pull_calls rep _⟩
  · have hD := setCurrentDir_ok
      { w with dirs := insertDir (rep.owner_path root) w.dirs }
      (rep.owner_path root) (mem_insertDir_self _ _)
    simp only [hD]
    have hE := setCurrentDir_ok
      ((rep.git_clone { w with dirs := insertDir (rep.owner_path root) w.dirs, cwd := rep.owner_path root }).1)
      w.cwd
      (git_clone_dirs_mono rep _ w.cwd (mem_insertDir w.cwd _ _ hcwd))
    simp only [hE]
    exact ⟨trivial, trivial, git_clone_calls rep _⟩

/-- Outcome of `update_repository` for an absent mirror whose canonical URL
is unreachable: nothing but the owner directory is created, no git command
runs, and the call succeeds. -/
theorem update_unreachable_absent (rep : Repository) (root : String)
    (clone : Bool) (w : World) (hcf : w.createDirFails = false)
    (hcwd : w.cwd ∈ w.dirs) (hunreach : w.reachable rep.url = false)
    (habsent : rep.path root ∉ insertDir (rep.owner_path root) w.dirs) :
    rep.update_repository root clone w =
      ⟨Except.ok (),
       { w with dirs := insertDir (rep.owner_path root) w.dirs }, []⟩ := by
  unfold Repository.update_repository
  have hcf2 : ¬ w.createDirFails = true := by rw [hcf]; simp
  simp only [createDirAll, if_neg hcf2, currentDir]
  rw [if_neg (by
    intro hex
    exact habsent ((pathExists_iff _ _).mp hex))]
  have hD := setCurrentDir_ok
    { w with dirs := insertDir (rep.owner_path root) w.dirs }
    (rep.owner_path root) (mem_insertDir_self _ _)
  simp only [hD]
  have hclone := git_clone_unreachable rep
    { w with dirs := insertDir (rep.owner_path root) w.dirs, cwd := rep.owner_path root }
    hunreach
  simp only [hclone]
  have hE := setCurrentDir_ok
    { w with dirs := insertDir (rep.owner_path root) w.dirs, cwd := rep.owner_path root }
    w.cwd (mem_insertDir w.cwd _ _ hcwd)
  simp only [hE]

theorem update_createDirFails (rep : Repository) (root : String)
    (clone : Bool) (w : World) (hcf : w.createDirFails = true) :
    rep.update_repository root clone w =
      ⟨Except.error "create_dir_all failed", w, []⟩ := by
  unfold Repository.update_repository
  simp only [createDirAll, if_pos hcf]

/-! ## The claims -/

/-- C1 (corrected): the unescaped dot in each host regex matches any
character, so a URL whose host is githubxcom (not one of the three
recognized domains) is accepted by from_url rather than rejected with a
ParseFailure, refuting the claim as stated. -/
theorem claim1_counterexample :
    Repository.from_url "https://githubxcom/a/b" =
      Except.ok (Repository.mk "githubxcom" "a" "b") ∧
    "githubxcom" ∉ ["github.com", "gitlab.com", "salsa.debian.org"] :=
  ⟨rfl, by decide⟩

/-- C1 (amended): for every input string, from_url either succeeds — in
which case the URL begins with http:// or https:// and the host segment of
the URL (the characters at the host position) matches one of the three
host patterns github.com, gitlab.com, salsa.debian.org, with the regexes'
unescaped dots matching arbitrary non-newline characters — or it fails
with the ParseFailure error carrying the original input string, and no
identity is returned. -/
theorem claim1_spec (u : String) :
    (∃ rep, Repository.from_url u = Except.ok rep ∧
      ∃ sch h rest, (sch = httpsChars ∨ sch = httpChars) ∧
        u.data = sch ++ (h ++ rest) ∧
        (hostMatches githubHost h ∨ hostMatches gitlabHost h ∨
          hostMatches salsaHost h)) ∨
    Repository.from_url u = Except.error (parseFailureMsg u) := by
  cases hf : firstMatch URL_REGEXES u.data with
  | none =>
    right
    unfold Repository.from_url
    rw [hf]
  | some rep =>
    left
    have hok : Repository.from_url u = Except.ok rep := by
      unfold Repository.from_url
      rw [hf]
    obtain ⟨sch, h, o, rp, t, hsch, hhost, ho, hos, hrp, hrps, hst, hnn, hu,
      hrep⟩ := (from_url_ok_iff u rep).mp hok
    exact ⟨rep, hok, sch, h, '/' :: (o ++ ('/' :: (rp ++ t))), hsch, hu,
      hhost⟩

/-- C2: after every update_repository call that starts from a live working
directory, the working directory is restored: the saved original directory
is re-entered on every exit path, including the hard-error path of
directory creation. -/
theorem claim2_spec (rep : Repository) (root : String) (clone : Bool)
    (w : World) (hcwd : w.cwd ∈ w.dirs) :
    ((rep.update_repository root clone w).world).cwd = w.cwd := by
  by_cases hcf : w.createDirFails = true
  · rw [update_createDirFails rep root clone w hcf]
  · simp only [Bool.not_eq_true] at hcf
    exact (update_run rep root clone w hcf hcwd).2.1

theorem claim2_witness :
    (((Repository.mk "github.com" "a" "b").update_repository "/tmp" true
      ⟨"/", ["/"], fun _ => true, GitLaunch.launchFailure, false⟩).world).cwd
      = "/" :=
  claim2_spec (Repository.mk "github.com" "a" "b") "/tmp" true
    ⟨"/", ["/"], fun _ => true, GitLaunch.launchFailure, false⟩ (by decide)

/-- C3: synchronizing a resolved identity whose canonical URL fails the
reachability probe, against a root where the mirror is absent, returns Ok,
runs no external git command, creates no repository directory, and leaves
exactly the owner directory added to the filesystem. -/
theorem claim3_spec (u : String) (rep : Repository) (root : String)
    (clone : Bool) (w : World)
    (hok : Repository.from_url u = Except.ok rep)
    (hunreach : w.reachable rep.url = false)
    (habsent : rep.path root ∉ w.dirs)
    (hcf : w.createDirFails = false)
    (hcwd : w.cwd ∈ w.dirs) :
    (rep.update_repository root clone w).res = Except.ok () ∧
    (rep.update_repository root clone w).gitCalls = [] ∧
    (rep.update_repository root clone w).world.dirs =
      insertDir (rep.owner_path root) w.dirs ∧
    rep.owner_path root ∈ (rep.update_repository root clone w).world.dirs ∧
    rep.path root ∉ (rep.update_repository root clone w).world.dirs := by
  have hfields := from_url_fields u rep hok
  have hne : rep.path root ≠ rep.owner_path root := by
    unfold Repository.path
    exact pathJoin_ne (rep.owner_path root) rep.repo hfields.2.2.2.2.2.1
      (head?_ne_slash _ hfields.2.2.2.2.2.2)
  have habs2 : rep.path root ∉ insertDir (rep.owner_path root) w.dirs :=
    not_mem_insertDir _ _ _ hne habsent
  have hrun := update_unreachable_absent rep root clone w hcf hcwd hunreach
    habs2
  rw [hrun]
  exact ⟨rfl, rfl, rfl, mem_insertDir_self _ _, habs2⟩

theorem claim3_witness :
    ((Repository.mk "github.com" "a" "b").update_repository "/tmp" true
      ⟨"/", ["/"], fun _ => false, GitLaunch.exited true, false⟩).res =
      Except.ok () ∧
    ((Repository.mk "github.com" "a" "b").update_repository "/tmp" true
      ⟨"/", ["/"], fun _ => false, GitLaunch.exited true, false⟩).gitCalls =
      [] :=
  ⟨(claim3_spec "https://github.com/a/b" (Repository.mk "github.com" "a"
      "b") "/tmp" true ⟨"/", ["/"], fun _ => false, GitLaunch.exited true,
      false⟩ rfl rfl (by decide) rfl (by decide)).1,
   (claim3_spec "https://github.com/a/b" (Repository.mk "github.com" "a"
      "b") "/tmp" true ⟨"/", ["/"], fun _ => false, GitLaunch.exited true,
      false⟩ rfl rfl (by decide) rfl (by decide)).2.1⟩

/-- C4: whenever filesystem preparation succeeds, update_repository returns
Ok regardless of the external git outcome — launch failure and non-zero
exit included — and the git operation is attempted at most once within the
call. -/
theorem claim4_spec (rep : Repository) (root : String) (clone : Bool)
    (w : World) (hcf : w.createDirFails = false) (hcwd : w.cwd ∈ w.dirs)
    (_hfail : w.git = GitLaunch.launchFailure ∨
      w.git = GitLaunch.exited false) :
    (rep.update_repository root clone w).res = Except.ok () ∧
    (rep.update_repository root clone w).gitCalls.length ≤ 1 :=
  ⟨(update_run rep root clone w hcf hcwd).1,
   (update_run rep root clone w hcf hcwd).2.2⟩

theorem claim4_witness :
    ((Repository.mk "github.com" "a" "b").update_repository "/tmp" false
      ⟨"/", ["/"], fun _ => true, GitLaunch.launchFailure, false⟩).res =
      Except.ok () ∧
    ((Repository.mk "github.com" "a" "b").update_repository "/tmp" false
      ⟨"/", ["/"], fun _ => true, GitLaunch.launchFailure,
      false⟩).gitCalls.length ≤ 1 :=
  claim4_spec (Repository.mk "github.com" "a" "b") "/tmp" false
    ⟨"/", ["/"], fun _ => true, GitLaunch.launchFailure, false⟩ rfl
    (by decide) (Or.inl rfl)

/-- C9: is_github and is_gitlab are never both true, because is_github holds
exactly when the host is github.com and is_gitlab exactly when the host is
gitlab.com or salsa.debian.org. -/
theorem claim9_spec (r : Repository) :
    (r.is_github && r.is_gitlab) = false ∧
    (r.is_github = true ↔ r.host = "github.com") ∧
    (r.is_gitlab = true ↔
      (r.host = "gitlab.com" ∨ r.host = "salsa.debian.org")) := by
  unfold Repository.is_github Repository.is_gitlab
  refine ⟨?_, ?_, ?_⟩
  · by_cases h : r.host = "github.com"
    · rw [h]
      decide
    · simp [h]
  · simp
  · simp

/-- C10: a .git suffix on the input URL is not stripped: the repo field,
the canonical URL and the derived path all keep the suffix, and the
identity differs from the one resolved without the suffix. -/
theorem claim10_spec :
    Repository.from_url "https://github.com/user/repo.git" =
      Except.ok (Repository.mk "github.com" "user" "repo.git") ∧
    (Repository.mk "github.com" "user" "repo.git").url =
      "https://github.com/user/repo.git" ∧
    (Repository.mk "github.com" "user" "repo.git").path "/tmp" =
      "/tmp/github.com/user/repo.git" ∧
    Repository.from_url "https://github.com/user/repo" =
      Except.ok (Repository.mk "github.com" "user" "repo") ∧
    Repository.mk "github.com" "user" "repo.git" ≠
      Repository.mk "github.com" "user" "repo" :=
  ⟨rfl, rfl, rfl, rfl, by decide⟩

theorem url_data (r : Repository) :
    (r.url).data = httpsChars ++ (r.host.data ++ ('/' :: (r.owner.data ++
      ('/' :: r.repo.data)))) := by
  unfold Repository.url
  simp [String.data_append, httpsChars, List.append_assoc]

/-- C5 (corrected): the round-trip fails on the program: Rust's
to_lowercase expands U+0130 (capital I with dot above) into the two
codepoints i, U+0307, so the URL with U+0130 at the host wildcard
position resolves to an identity whose stored host has eleven codepoints;
that host matches no pattern, and re-resolving the canonical URL fails. -/
theorem claim5_counterexample :
    Repository.from_url
        ("https://github" ++ String.mk [Char.ofNat 304] ++ "com/a/b") =
      Except.ok (Repository.mk
        ("githubi" ++ String.mk [Char.ofNat 775] ++ "com") "a" "b") ∧
    Repository.from_url
        ((Repository.mk ("githubi" ++ String.mk [Char.ofNat 775] ++ "com")
          "a" "b").url) =
      Except.error (parseFailureMsg
        ((Repository.mk ("githubi" ++ String.mk [Char.ofNat 775] ++ "com")
          "a" "b").url)) :=
  ⟨rfl, rfl⟩

/-- C5 (amended): the round-trip holds for every resolved identity whose
stored (lowercased) host still matches one of the three host patterns —
in particular for every URL whose host contains no character that expands
under Unicode lowercasing: re-resolving the canonical URL yields an
identity equal to the original. -/
theorem claim5_spec (u : String) (rep : Repository)
    (hok : Repository.from_url u = Except.ok rep)
    (hhost : hostMatches githubHost rep.host.data ∨
      hostMatches gitlabHost rep.host.data ∨
      hostMatches salsaHost rep.host.data) :
    Repository.from_url rep.url = Except.ok rep := by
  obtain ⟨sch, h, o, rp, t, hsch, _, ho, hos, hrp, hrps, hst, hnn, hu,
    hrep⟩ := (from_url_ok_iff u rep).mp hok
  have hhd : rep.host.data = lowerChars h := by rw [hrep]
  rw [hhd] at hhost
  apply (from_url_ok_iff _ _).mpr
  refine ⟨httpsChars, lowerChars h, lowerChars o, lowerChars rp, [],
    Or.inl rfl, hhost, lowerChars_ne_nil o ho,
    noSlash_lowerChars o hos, lowerChars_ne_nil rp hrp,
    noSlash_lowerChars rp hrps, Or.inl rfl,
    fun c hc => absurd hc (List.not_mem_nil c), ?_, ?_⟩
  · rw [hrep, url_data]
    simp only [List.append_nil]
  · rw [hrep]
    simp only [lowerChars_idem]

theorem claim5_witness :
    Repository.from_url
        ((Repository.mk "github.com" "szabgab" "rust-digger").url) =
      Except.ok (Repository.mk "github.com" "szabgab" "rust-digger") :=
  claim5_spec "https://github.com/szabgab/rust-digger"
    (Repository.mk "github.com" "szabgab" "rust-digger") rfl
    (Or.inl (matchHostChars_sound githubHost ("github.com".data)
      ("github.com".data) [] (by decide)).2)

/-- C6 (corrected): the regex tail cannot cross a newline, so a subpath
containing a newline character makes resolution fail instead of collapsing
to the repository identity, refuting the claim for arbitrary subpaths. -/
theorem claim6_counterexample :
    Repository.from_url "https://github.com/a/b" =
      Except.ok (Repository.mk "github.com" "a" "b") ∧
    Repository.from_url "https://github.com/a/b/tree/main/x\nz" =
      Except.error (parseFailureMsg "https://github.com/a/b/tree/main/x\nz")
    := ⟨rfl, rfl⟩

/-- C6 (amended): for every URL recognized by from_url and every
newline-free string s, appending a slash and s yields the same identity; in
particular a trailing slash (s empty) and any newline-free slash-separated
subpath after owner and repo are collapsed away. -/
theorem claim6_spec (u : String) (rep : Repository) (s : String)
    (hok : Repository.from_url u = Except.ok rep)
    (hnews : noNewline s.data) :
    Repository.from_url (u ++ "/" ++ s) = Except.ok rep := by
  obtain ⟨sch, h, o, rp, t, hsch, hhost, ho, hos, hrp, hrps, hst, hnn, hu,
    hrep⟩ := (from_url_ok_iff u rep).mp hok
  apply (from_url_ok_iff _ _).mpr
  refine ⟨sch, h, o, rp, t ++ '/' :: s.data, hsch, hhost, ho, hos, hrp,
    hrps, ?_, ?_, ?_, hrep⟩
  · rcases hst with rfl | ⟨u2, rfl⟩
    · exact Or.inr ⟨s.data, rfl⟩
    · exact Or.inr ⟨u2 ++ '/' :: s.data, by simp⟩
  · intro c hc
    rcases List.mem_append.mp hc with hc | hc
    · exact hnn c hc
    · rcases List.mem_cons.mp hc with rfl | hc
      · decide
      · exact hnews c hc
  · simp only [String.data_append, hu]
    simp [List.append_assoc]

theorem claim6_witness :
    Repository.from_url ("https://github.com/a/b" ++ "/" ++ "tree/main/x") =
      Except.ok (Repository.mk "github.com" "a" "b") :=
  claim6_spec "https://github.com/a/b" (Repository.mk "github.com" "a"
    "b") "tree/main/x" rfl (by unfold noNewline; decide)

/-- Lowercasing the whole input preserves a successful resolution and its
result: the host patterns are lowercase with dots matching any non-newline
character, slashes and the scheme literal are fixed by lowercasing, and the
captures are lowercased anyway. -/
theorem from_url_lower (u : String) (rep : Repository)
    (hok : Repository.from_url u = Except.ok rep) :
    Repository.from_url (lowerStr u) = Except.ok rep := by
  obtain ⟨sch, h, o, rp, t, hsch, hhost, ho, hos, hrp, hrps, hst, hnn, hu,
    hrep⟩ := (from_url_ok_iff u rep).mp hok
  apply (from_url_ok_iff _ _).mpr
  have hslash : lowerChar '/' = '/' := by decide
  have hschlow : sch.map lowerChar = sch := by
    rcases hsch with rfl | rfl <;> decide
  refine ⟨sch, h.map lowerChar, o.map lowerChar, rp.map lowerChar,
    t.map lowerChar, hsch, hostMatches_lower3 h hhost, mapLower_ne_nil o ho,
    noSlash_mapLower o hos, mapLower_ne_nil rp hrp,
    noSlash_mapLower rp hrps, ?_, noNewline_mapLower t hnn, ?_, ?_⟩
  · rcases hst with rfl | ⟨u2, rfl⟩
    · exact Or.inl rfl
    · refine Or.inr ⟨u2.map lowerChar, ?_⟩
      rw [List.map_cons, hslash]
  · show u.data.map lowerChar = _
    rw [hu]
    simp only [List.map_append, List.map_cons, hslash, hschlow]
  · rw [hrep]
    simp only [lowerChars_mapLower]

/-- C7 (corrected): case-equivalent inputs that both resolve yield the same
identity (covering owner and repo case variation), the scheme http versus
https is insignificant to the result, owner and repo are stored lowercase,
and the canonical URL is always rebuilt with https; host case variation is
NOT tolerated (see the counterexample). -/
theorem claim7_spec :
    (∀ u1 u2 rep1 rep2, lowerStr u1 = lowerStr u2 →
      Repository.from_url u1 = Except.ok rep1 →
      Repository.from_url u2 = Except.ok rep2 → rep1 = rep2) ∧
    (∀ s rep, Repository.from_url ("http://" ++ s) = Except.ok rep ↔
      Repository.from_url ("https://" ++ s) = Except.ok rep) ∧
    (∀ u rep, Repository.from_url u = Except.ok rep →
      rep.owner = lowerStr rep.owner ∧ rep.repo = lowerStr rep.repo ∧
      rep.url = "https://" ++ rep.host ++ "/" ++ rep.owner ++ "/" ++
        rep.repo) := by
  refine ⟨?_, ?_, ?_⟩
  · intro u1 u2 rep1 rep2 hlow h1 h2
    have l1 := from_url_lower u1 rep1 h1
    have l2 := from_url_lower u2 rep2 h2
    rw [hlow] at l1
    rw [l1] at l2
    exact Except.ok.inj l2
  · intro s rep
    have hhttp : ("http://" ++ s).data = httpChars ++ s.data := by
      rw [String.data_append,
        show ("http://" : String).data = httpChars from by decide]
    have hhttps : ("https://" ++ s).data = httpsChars ++ s.data := by
      rw [String.data_append,
        show ("https://" : String).data = httpsChars from by decide]
    constructor
    · intro hok
      obtain ⟨sch, h, o, rp, t, hsch, hhost, ho, hos, hrp, hrps, hst, hnn,
        hu, hrep⟩ := (from_url_ok_iff _ _).mp hok
      rw [hhttp] at hu
      have hs : s.data = h ++ ('/' :: (o ++ ('/' :: (rp ++ t)))) := by
        rcases hsch with rfl | rfl
        · exfalso
          simp [httpChars, httpsChars] at hu
        · simpa [httpChars] using hu
      exact (from_url_ok_iff _ _).mpr ⟨httpsChars, h, o, rp, t, Or.inl rfl,
        hhost, ho, hos, hrp, hrps, hst, hnn, by rw [hhttps, hs], hrep⟩
    · intro hok
      obtain ⟨sch, h, o, rp, t, hsch, hhost, ho, hos, hrp, hrps, hst, hnn,
        hu, hrep⟩ := (from_url_ok_iff _ _).mp hok
      rw [hhttps] at hu
      have hs : s.data = h ++ ('/' :: (o ++ ('/' :: (rp ++ t)))) := by
        rcases hsch with rfl | rfl
        · simpa [httpsChars] using hu
        · exfalso
          simp [httpsChars, httpChars] at hu
      exact (from_url_ok_iff _ _).mpr ⟨httpChars, h, o, rp, t, Or.inr rfl,
        hhost, ho, hos, hrp, hrps, hst, hnn, by rw [hhttp, hs], hrep⟩
  · intro u rep hok
    obtain ⟨sch, h, o, rp, t, hsch, hhost, ho, hos, hrp, hrps, hst, hnn,
      hu, hrep⟩ := (from_url_ok_iff _ _).mp hok
    refine ⟨?_, ?_, rfl⟩
    · rw [hrep]
      show String.mk (lowerChars o) = lowerStr (String.mk (lowerChars o))
      unfold lowerStr
      rw [show (String.mk (lowerChars o)).data = lowerChars o from rfl,
        mapLower_lowerChars]
    · rw [hrep]
      show String.mk (lowerChars rp) = lowerStr (String.mk (lowerChars rp))
      unfold lowerStr
      rw [show (String.mk (lowerChars rp)).data = lowerChars rp from rfl,
        mapLower_lowerChars]

/-- C7 (counterexample): two URLs differing only in the letter case of the
host segment do not resolve identically — the lowercase one succeeds and
the uppercase one is rejected, because the regexes match the host
literally and case-sensitively. -/
theorem claim7_counterexample :
    Repository.from_url "https://github.com/a/b" =
      Except.ok (Repository.mk "github.com" "a" "b") ∧
    Repository.from_url "https://GITHUB.com/a/b" =
      Except.error (parseFailureMsg "https://GITHUB.com/a/b") ∧
    lowerStr "https://GITHUB.com/a/b" = lowerStr "https://github.com/a/b" :=
  ⟨rfl, rfl, by decide⟩

theorem claim7_witness :
    Repository.from_url "https://gitlab.com/Szabgab/Rust-digger" =
      Except.ok (Repository.mk "gitlab.com" "szabgab" "rust-digger") ∧
    Repository.mk "gitlab.com" "szabgab" "rust-digger" =
      Repository.mk "gitlab.com" "szabgab" "rust-digger" :=
  ⟨rfl, claim7_spec.1 "https://gitlab.com/Szabgab/Rust-digger"
    "https://gitlab.com/szabgab/rust-digger"
    (Repository.mk "gitlab.com" "szabgab" "rust-digger")
    (Repository.mk "gitlab.com" "szabgab" "rust-digger")
    (by decide) rfl rfl⟩

/-- C8: for every resolved identity and every nonempty root with no
trailing separator, the derived owner path is root/host/owner and the
derived repo path is root/host/owner/repo. -/
theorem claim8_spec (u : String) (rep : Repository) (root : String)
    (hok : Repository.from_url u = Except.ok rep)
    (hroot1 : root.data ≠ []) (hroot2 : root.data.getLast? ≠ some '/') :
    rep.owner_path root = root ++ "/" ++ rep.host ++ "/" ++ rep.owner ∧
    rep.path root =
      root ++ "/" ++ rep.host ++ "/" ++ rep.owner ++ "/" ++ rep.repo := by
  obtain ⟨hhne, hhhd, hhl, hone, hons, hrne, hrns⟩ :=
    from_url_fields u rep hok
  have hstep1 : pathJoin root rep.host = root ++ "/" ++ rep.host :=
    pathJoin_eq root rep.host hhhd hroot1 hroot2
  have hb1ne : (root ++ "/" ++ rep.host).data ≠ [] := by
    rw [String.data_append]
    intro hnil
    exact hhne (List.append_eq_nil.mp hnil).2
  have hb1last : (root ++ "/" ++ rep.host).data.getLast? =
      rep.host.data.getLast? := by
    rw [String.data_append, List.getLast?_append]
    obtain ⟨c, hc⟩ : ∃ c, rep.host.data.getLast? = some c := by
      cases hgl : rep.host.data.getLast? with
      | none => exact absurd (List.getLast?_eq_none_iff.mp hgl) hhne
      | some c => exact ⟨c, rfl⟩
    rw [hc]
    rfl
  have hstep2 : rep.owner_path root =
      root ++ "/" ++ rep.host ++ "/" ++ rep.owner := by
    unfold Repository.owner_path
    rw [hstep1]
    exact pathJoin_eq _ rep.owner (head?_ne_slash _ hons) hb1ne
      (by rw [hb1last]; exact hhl)
  refine ⟨hstep2, ?_⟩
  have hb2ne : (root ++ "/" ++ rep.host ++ "/" ++ rep.owner).data ≠ [] := by
    rw [String.data_append]
    intro hnil
    exact hone (List.append_eq_nil.mp hnil).2
  have hb2last : (root ++ "/" ++ rep.host ++ "/" ++
      rep.owner).data.getLast? = rep.owner.data.getLast? := by
    rw [String.data_append, List.getLast?_append]
    obtain ⟨c, hc⟩ : ∃ c, rep.owner.data.getLast? = some c := by
      cases hgl : rep.owner.data.getLast? with
      | none => exact absurd (List.getLast?_eq_none_iff.mp hgl) hone
      | some c => exact ⟨c, rfl⟩
    rw [hc]
    rfl
  unfold Repository.path
  rw [hstep2]
  exact pathJoin_eq _ rep.repo (head?_ne_slash _ hrns) hb2ne
    (by rw [hb2last]; exact getLast?_ne_slash _ hons)

theorem claim8_witness :
    (Repository.mk "github.com" "szabgab" "rust-digger").path "/tmp" =
      "/tmp/github.com/szabgab/rust-digger" := by
  have h := claim8_spec "https://github.com/szabgab/rust-digger"
    (Repository.mk "github.com" "szabgab" "rust-digger") "/tmp" rfl
    (by decide) (by decide)
  exact h.2.trans (by decide)

end GitDigger
